import Mathlib

/-!
# X și O (tic-tac-toe): a shallow embedding of `src/App.js`

The React component `Game` keeps its state in `useState` cells; the event
handlers `Board.handleClick`, `Game.handlePlay`, `Game.jumpTo` and
`Game.resetGame` are embedded as pure functions on a record of those cells.
The `setTimeout` callback scheduled by `handlePlay` is embedded as a counter of
outstanding callbacks together with a transition that runs one of them.
-/

namespace XsiO

/-- The two truthy cell values, the strings "X" and "O". -/
inductive Mark where
  | X
  | O
  deriving DecidableEq, Repr

/-- A cell of the board: `none` is JavaScript `null`, `some m` is a mark. -/
abbrev Cell := Option Mark

/-- A board snapshot, the array `squares`. -/
abbrev Squares := List Cell

/-- The array read `squares[a]`.  Reading past the end yields `undefined` in
JavaScript, which like `null` is falsy and differs from both marks; it is
represented by `none` as well. -/
def cellAt (squares : Squares) (a : Nat) : Cell :=
  squares.getD a none

/-- The constant `lines` of `calculateWinner`, in source order. -/
def lines : List (Nat × Nat × Nat) :=
  [(0, 1, 2), (3, 4, 5), (6, 7, 8), (0, 3, 6), (1, 4, 7), (2, 5, 8), (0, 4, 8), (2, 4, 6)]

/-- The `for (let [a, b, c] of lines)` loop of `calculateWinner`, over an
arbitrary list of triples: the first triple whose three cells are truthy and
strictly equal returns `squares[a]`; running off the end returns `null`. -/
def calculateWinnerFrom : List (Nat × Nat × Nat) → Squares → Option Mark
  | [], _ => none
  | (a, b, c) :: rest, squares =>
    if (cellAt squares a).isSome ∧ cellAt squares a = cellAt squares b
        ∧ cellAt squares a = cellAt squares c then
      cellAt squares a
    else
      calculateWinnerFrom rest squares

/-- The function `calculateWinner(squares)` of `src/App.js`. -/
def calculateWinner (squares : Squares) : Option Mark :=
  calculateWinnerFrom lines squares

/-- The triple `t` of `squares` holds three cells all equal to the mark `m`. -/
def Holds (squares : Squares) (t : Nat × Nat × Nat) (m : Mark) : Prop :=
  cellAt squares t.1 = some m ∧ cellAt squares t.2.1 = some m ∧ cellAt squares t.2.2 = some m

/-- The state cells of the component `Game` (its `useState` hooks), together
with the number of `setTimeout` callbacks that `handlePlay` has scheduled and
that have not run yet.  The cell `windowSize` only sizes the confetti canvas and
is left out. -/
structure GameState where
  history : List Squares
  currentMove : Int
  winner : Option Mark
  gameOver : Bool
  showCelebration : Bool
  autoResetMsg : Bool
  pendingResets : Nat
  deriving DecidableEq, Repr

/-- The array `Array(9).fill(null)`. -/
def emptyBoard : Squares := List.replicate 9 none

/-- The initial values passed to the `useState` hooks; no callback is scheduled. -/
def initial : GameState :=
  { history := [emptyBoard], currentMove := 0, winner := none, gameOver := false,
    showCelebration := false, autoResetMsg := false, pendingResets := 0 }

/-- The constant `xIsNext = currentMove % 2 === 0`; the JavaScript remainder
truncates towards zero. -/
def xIsNext (s : GameState) : Bool :=
  decide (s.currentMove.tmod 2 = 0)

/-- The array read `history[k]` at an integer index: `none` stands for
`undefined`, the result outside `0 <= k < history.length`. -/
def arrayAt (history : List Squares) (k : Int) : Option Squares :=
  if 0 ≤ k then history[k.toNat]? else none

/-- The constant `currentSquares = history[currentMove]`. -/
def currentSquares (s : GameState) : Option Squares :=
  arrayAt s.history s.currentMove

/-- The call `xs.slice(0, e)` at an integer `e`: a negative `e` counts from the
end of the array, and the end is clamped to `0 .. xs.length`. -/
def sliceTo {α : Type} (xs : List α) (e : Int) : List α :=
  if e < 0 then xs.take ((xs.length : Int) + e).toNat else xs.take e.toNat

/-- The mark written by `handleClick`: `xIsNext ? "X" : "O"`. -/
def markOf (xNext : Bool) : Mark :=
  if xNext then Mark.X else Mark.O

/-- The function `Board.handleClick(i)` for the props `xIsNext`, `squares` and
`gameOver`, at an index `i` of `squares` (the handler is bound to the indices
produced by `squares.map`).  The result is `none` when the handler returns at
its guard, and `some nextSquares` when it calls `onPlay(nextSquares)`. -/
def handleClick (xNext : Bool) (squares : Squares) (gameOver : Bool) (i : Nat) :
    Option Squares :=
  if gameOver = true ∨ (calculateWinner squares).isSome ∨ (cellAt squares i).isSome then
    none
  else
    some (squares.set i (some (markOf xNext)))

/-- The function `Game.handlePlay(nextSquares)`. -/
def handlePlay (s : GameState) (nextSquares : Squares) : GameState :=
  let nextHistory := sliceTo s.history (s.currentMove + 1) ++ [nextSquares]
  let winnerNow := calculateWinner nextSquares
  let s1 : GameState :=
    { s with history := nextHistory,
             currentMove := (nextHistory.length : Int) - 1,
             winner := winnerNow }
  if winnerNow.isSome ∨ ¬ (none ∈ nextSquares) then
    { s1 with gameOver := true, showCelebration := true, autoResetMsg := true,
              pendingResets := s.pendingResets + 1 }
  else
    s1

/-- The function `Game.jumpTo(nextMove)`. -/
def jumpTo (s : GameState) (nextMove : Int) : GameState :=
  { s with currentMove := nextMove, winner := none, gameOver := false,
           showCelebration := false }

/-- The function `Game.resetGame()`. -/
def resetGame (s : GameState) : GameState :=
  { s with history := [emptyBoard], currentMove := 0, winner := none, gameOver := false,
           showCelebration := false }

/-- One scheduled callback `() => { resetGame(); setAutoResetMsg(false); }` runs. -/
def timerFires (s : GameState) : GameState :=
  { resetGame s with autoResetMsg := false, pendingResets := s.pendingResets - 1 }

/-- A click on the square button `i`: the operation `play(i)`.  `Game` renders
`Board` with `squares = currentSquares`, and `Board` renders one button per
index of `squares`; a click on button `i` runs `handleClick(i)`, whose `onPlay`
is `handlePlay`.  Where no such button is rendered nothing happens.  (`Square`
also disables its button when `gameOver` is set or the cell is not `null`; in
both cases `handleClick` returns at its guard, so a click that does not reach the
handler and one that does leave the same state.) -/
def click (s : GameState) (i : Nat) : GameState :=
  match currentSquares s with
  | none => s
  | some squares =>
    if i < squares.length then
      match handleClick (xIsNext s) squares s.gameOver i with
      | none => s
      | some nextSquares => handlePlay s nextSquares
    else s

/-- A click on the button of move `k` in the move list: the operation
`jumpTo(move)` as the component offers it.  `Game` renders
`moves = history.map((_, move) => ...)`, one button per index of `history`, whose
`onClick` is `() => jumpTo(move)`; this is the only call of `jumpTo`.  Where no
such button is rendered nothing happens. -/
def jump (s : GameState) (k : Int) : GameState :=
  if 0 ≤ k ∧ k < (s.history.length : Int) then jumpTo s k else s

/-- The click on button `i` is accepted: `handleClick(i)` passes its guard and
calls `onPlay(nextSquares)`. -/
def Accepted (s : GameState) (i : Nat) (nextSquares : Squares) : Prop :=
  ∃ squares, currentSquares s = some squares ∧ i < squares.length ∧
    handleClick (xIsNext s) squares s.gameOver i = some nextSquares

/-- The events the component reacts to: a click on a square, a click on the
button of move `k` in the move list, a click on the reset button, and the expiry
of a scheduled timeout. -/
inductive Action where
  | click (i : Nat)
  | jump (k : Int)
  | reset
  | timeout
  deriving DecidableEq, Repr

/-- One event.  The move list holds one button per index of `history`, so a jump
is enabled for `0 <= k < history.length` only; a timeout can expire only when one
is scheduled.  The reset button is taken as always enabled (the component hides
it while `gameOver` is set), which only enlarges the set of reachable states. -/
def step (s : GameState) : Action → Option GameState
  | Action.click i => some (click s i)
  | Action.jump k => if 0 ≤ k ∧ k < (s.history.length : Int) then some (jumpTo s k) else none
  | Action.reset => some (resetGame s)
  | Action.timeout => if 0 < s.pendingResets then some (timerFires s) else none

/-- A sequence of events. -/
def run (s : GameState) : List Action → Option GameState
  | [] => some s
  | a :: rest => (step s a).bind (fun s1 => run s1 rest)

/-- The states the component reaches from its initial state. -/
def Reachable (s : GameState) : Prop :=
  ∃ acts, run initial acts = some s

/-- The board `q` is the board `p` with one empty cell filled, `p` having no
completed line. -/
def IsMove (p q : Squares) : Prop :=
  calculateWinner p = none ∧
    ∃ i m, i < p.length ∧ cellAt p i = none ∧ q = p.set i (some m)

/-- The invariant of the reachable states: the pointer indexes `history`, which
starts at the empty board and proceeds by moves. -/
def Inv (s : GameState) : Prop :=
  0 ≤ s.currentMove ∧ s.currentMove < (s.history.length : Int) ∧
    s.history.head? = some emptyBoard ∧ List.Chain' IsMove s.history

/-- The mark `m` has a completed line on `squares`. -/
def HasLine (squares : Squares) (m : Mark) : Prop :=
  ∃ t ∈ lines, Holds squares t m

/-- The clicks 0, 1, 4, 2, 8 from the initial state (X:0, O:1, X:4, O:2, X:8). -/
def wonGame : GameState :=
  click (click (click (click (click initial 0) 1) 4) 2) 8

/-- The clicks 0, 1, 2, 4, 3, 5, 7, 6, 8 from the initial state (X:0, O:1, X:2,
O:4, X:3, O:5, X:7, O:6, X:8). -/
def drawGame : GameState :=
  click (click (click (click (click (click (click (click (click initial 0) 1) 2) 4) 3) 5) 7) 6) 8

/-- The clicks 0 and 1 from the initial state, then a jump back to move 0. -/
def branchPoint : GameState :=
  jumpTo (click (click initial 0) 1) 0

/-! ## The win evaluator -/

theorem calculateWinnerFrom_some (ls : List (Nat × Nat × Nat)) (squares : Squares) (m : Mark)
    (h : calculateWinnerFrom ls squares = some m) : ∃ t ∈ ls, Holds squares t m := by
  induction ls with
  | nil => simp [calculateWinnerFrom] at h
  | cons t rest ih =>
    obtain ⟨a, b, c⟩ := t
    unfold calculateWinnerFrom at h
    split at h
    · rename_i hc
      refine ⟨(a, b, c), List.mem_cons_self _ _, ?_⟩
      obtain ⟨_, hb, hc⟩ := hc
      exact ⟨h, hb ▸ h, hc ▸ h⟩
    · obtain ⟨t, ht, hh⟩ := ih h
      exact ⟨t, List.mem_cons_of_mem _ ht, hh⟩

theorem calculateWinnerFrom_none (ls : List (Nat × Nat × Nat)) (squares : Squares) :
    calculateWinnerFrom ls squares = none ↔ ∀ t ∈ ls, ∀ m, ¬ Holds squares t m := by
  induction ls with
  | nil => simp [calculateWinnerFrom]
  | cons t rest ih =>
    obtain ⟨a, b, c⟩ := t
    unfold calculateWinnerFrom
    split
    · rename_i hc
      obtain ⟨ha, hb, hc⟩ := hc
      obtain ⟨m, hm⟩ := Option.isSome_iff_exists.mp ha
      constructor
      · intro h; rw [hm] at h; cases h
      · intro h
        exact absurd ⟨hm, hb ▸ hm, hc ▸ hm⟩ (h (a, b, c) (List.mem_cons_self _ _) m)
    · rename_i hc
      rw [ih]
      constructor
      · intro h t ht m hh
        rcases List.mem_cons.mp ht with rfl | ht
        · apply hc
          obtain ⟨h1, h2, h3⟩ := hh
          simp only at h1 h2 h3
          exact ⟨by rw [h1]; rfl, by rw [h1, h2], by rw [h1, h3]⟩
        · exact h t ht m hh
      · intro h t ht m
        exact h t (List.mem_cons_of_mem _ ht) m

theorem calculateWinnerFrom_isSome (ls : List (Nat × Nat × Nat)) (squares : Squares) :
    (∃ m, calculateWinnerFrom ls squares = some m) ↔ ∃ t ∈ ls, ∃ m, Holds squares t m := by
  constructor
  · rintro ⟨m, hm⟩
    obtain ⟨t, ht, hh⟩ := calculateWinnerFrom_some ls squares m hm
    exact ⟨t, ht, m, hh⟩
  · rintro ⟨t, ht, m, hh⟩
    cases hw : calculateWinnerFrom ls squares with
    | none => exact absurd hh ((calculateWinnerFrom_none ls squares).mp hw t ht m)
    | some w => exact ⟨w, rfl⟩

/-- C1: on every board of nine cells, `calculateWinner` returns a mark exactly
when one of the eight rows, columns and diagonals holds three equal non-empty
marks; a returned mark is the mark of such a triple; and it returns none when no
triple does. -/
theorem calculateWinner_spec (board : Squares) (_hlen : board.length = 9) :
    ((∃ m, calculateWinner board = some m) ↔
      ∃ t ∈ [(0, 1, 2), (3, 4, 5), (6, 7, 8), (0, 3, 6), (1, 4, 7), (2, 5, 8),
              (0, 4, 8), (2, 4, 6)], ∃ m, Holds board t m) ∧
    (∀ m, calculateWinner board = some m →
      ∃ t ∈ [(0, 1, 2), (3, 4, 5), (6, 7, 8), (0, 3, 6), (1, 4, 7), (2, 5, 8),
              (0, 4, 8), (2, 4, 6)], Holds board t m) ∧
    ((¬ ∃ t ∈ [(0, 1, 2), (3, 4, 5), (6, 7, 8), (0, 3, 6), (1, 4, 7), (2, 5, 8),
              (0, 4, 8), (2, 4, 6)], ∃ m, Holds board t m) →
      calculateWinner board = none) := by
  refine ⟨calculateWinnerFrom_isSome lines board, calculateWinnerFrom_some lines board, ?_⟩
  intro h
  rw [calculateWinner, calculateWinnerFrom_none]
  intro t ht m hh
  exact h ⟨t, ht, m, hh⟩

/-- C1 on the board X O O / . X . / . . X, which X wins on the diagonal 0-4-8. -/
theorem calculateWinner_spec_witness :
    [some Mark.X, some Mark.O, some Mark.O, none, some Mark.X, none, none, none,
        some Mark.X].length = 9 ∧
      ∃ t ∈ [(0, 1, 2), (3, 4, 5), (6, 7, 8), (0, 3, 6), (1, 4, 7), (2, 5, 8),
              (0, 4, 8), (2, 4, 6)],
        Holds [some Mark.X, some Mark.O, some Mark.O, none, some Mark.X, none, none, none,
          some Mark.X] t Mark.X :=
  ⟨rfl, (calculateWinner_spec [some Mark.X, some Mark.O, some Mark.O, none, some Mark.X, none,
    none, none, some Mark.X] rfl).2.1 Mark.X (by decide)⟩

/-! ## Clicks on the board -/

theorem arrayAt_eq_some {history : List Squares} {k : Int} {squares : Squares}
    (h : arrayAt history k = some squares) :
    0 ≤ k ∧ k < (history.length : Int) ∧ history[k.toNat]? = some squares := by
  unfold arrayAt at h
  split at h
  · rename_i hk
    obtain ⟨hlt, _⟩ := List.getElem?_eq_some.mp h
    exact ⟨hk, by omega, h⟩
  · cases h

theorem click_of_accepted {s : GameState} {i : Nat} {b : Squares} (h : Accepted s i b) :
    click s i = handlePlay s b := by
  obtain ⟨squares, hsq, hi, hb⟩ := h
  simp [click, hsq, hi, hb]

theorem handleClick_eq_some {xNext gameOver : Bool} {squares b : Squares} {i : Nat}
    (h : handleClick xNext squares gameOver i = some b) :
    gameOver = false ∧ calculateWinner squares = none ∧ cellAt squares i = none ∧
      b = squares.set i (some (markOf xNext)) := by
  unfold handleClick at h
  split at h
  · cases h
  · rename_i hg
    simp only [not_or, Bool.not_eq_true] at hg
    obtain ⟨h1, h2, h3⟩ := hg
    exact ⟨h1, Option.not_isSome_iff_eq_none.mp (by simp [h2]),
      Option.not_isSome_iff_eq_none.mp (by simp [h3]), (Option.some.inj h).symm⟩

theorem sliceTo_succ {α : Type} (xs : List α) (k : Int) (hk : 0 ≤ k) :
    sliceTo xs (k + 1) = xs.take (k.toNat + 1) := by
  unfold sliceTo
  have h1 : ¬ (k + 1 < 0) := by omega
  have h2 : (k + 1).toNat = k.toNat + 1 := by omega
  rw [if_neg h1, h2]

theorem handlePlay_history (s : GameState) (b : Squares) :
    (handlePlay s b).history = sliceTo s.history (s.currentMove + 1) ++ [b] := by
  unfold handlePlay
  simp only
  split <;> rfl

theorem handlePlay_currentMove (s : GameState) (b : Squares) :
    (handlePlay s b).currentMove = ((handlePlay s b).history.length : Int) - 1 := by
  rw [handlePlay_history]
  unfold handlePlay
  simp only
  split <;> rfl

/-- C2: when the game-over flag is set, or the current board has a winner, or
cell `i` of the current board is occupied, `handleClick(i)` returns at its guard
and the click changes nothing: history, pointer, stored winner and game-over flag
(and the rest of the state) are as before. -/
theorem click_rejected (s : GameState) (i : Nat)
    (h : s.gameOver = true ∨ ∃ squares, currentSquares s = some squares ∧
      (calculateWinner squares ≠ none ∨ cellAt squares i ≠ none)) :
    (∀ squares, currentSquares s = some squares →
        handleClick (xIsNext s) squares s.gameOver i = none) ∧
      (click s i).history = s.history ∧ (click s i).currentMove = s.currentMove ∧
      (click s i).winner = s.winner ∧ (click s i).gameOver = s.gameOver ∧ click s i = s := by
  have hg : ∀ squares, currentSquares s = some squares →
      handleClick (xIsNext s) squares s.gameOver i = none := by
    intro squares hsq
    unfold handleClick
    rw [if_pos]
    rcases h with h | ⟨sq, hsq2, h⟩
    · exact Or.inl h
    · rw [hsq] at hsq2
      cases hsq2
      rcases h with h | h
      · exact Or.inr (Or.inl (Option.isSome_iff_ne_none.mpr h))
      · exact Or.inr (Or.inr (Option.isSome_iff_ne_none.mpr h))
  have hc : click s i = s := by
    unfold click
    cases hsq : currentSquares s with
    | none => rfl
    | some squares =>
      simp only
      split
      · rw [hg squares hsq]
      · rfl
  exact ⟨hg, by rw [hc], by rw [hc], by rw [hc], by rw [hc], hc⟩

/-- C2 after X:0, on the occupied cell 0. -/
theorem click_rejected_witness :
    cellAt (emptyBoard.set 0 (some Mark.X)) 0 ≠ none ∧
      click (click initial 0) 0 = click initial 0 :=
  ⟨by decide, (click_rejected (click initial 0) 0
    (Or.inr ⟨emptyBoard.set 0 (some Mark.X), rfl, Or.inr (by decide)⟩)).2.2.2.2.2⟩

/-- C3: an accepted play producing board `b` sets the game-over flag and stores
the mark when `b` has a winner (whether or not `b` is full), sets the game-over
flag and stores no winner when `b` is full without a winner, and otherwise leaves
the game-over flag clear with no stored winner; the sequence X:0, O:1, X:4, O:2,
X:8 ends won by X, and X:0, O:1, X:2, O:4, X:3, O:5, X:7, O:6, X:8 ends drawn. -/
theorem play_outcome :
    (∀ (s : GameState) (i : Nat) (b : Squares), Accepted s i b →
      (∀ m, calculateWinner b = some m →
        (click s i).gameOver = true ∧ (click s i).winner = some m) ∧
      (calculateWinner b = none → none ∉ b →
        (click s i).gameOver = true ∧ (click s i).winner = none) ∧
      (calculateWinner b = none → none ∈ b →
        (click s i).gameOver = false ∧ (click s i).winner = none)) ∧
    (run initial [Action.click 0, Action.click 1, Action.click 4, Action.click 2,
        Action.click 8] = some wonGame ∧
      wonGame.history.getLast? = some [some Mark.X, some Mark.O, some Mark.O, none,
        some Mark.X, none, none, none, some Mark.X] ∧
      wonGame.gameOver = true ∧ wonGame.winner = some Mark.X) ∧
    (run initial [Action.click 0, Action.click 1, Action.click 2, Action.click 4,
        Action.click 3, Action.click 5, Action.click 7, Action.click 6, Action.click 8]
        = some drawGame ∧
      drawGame.history.getLast? = some [some Mark.X, some Mark.O, some Mark.X, some Mark.X,
        some Mark.O, some Mark.O, some Mark.O, some Mark.X, some Mark.X] ∧
      drawGame.gameOver = true ∧ drawGame.winner = none) := by
  refine ⟨?_, ?_, ?_⟩
  · intro s i b hacc
    rw [click_of_accepted hacc]
    obtain ⟨squares, _, _, hb⟩ := hacc
    obtain ⟨hgo, _, _, _⟩ := handleClick_eq_some hb
    refine ⟨?_, ?_, ?_⟩
    · intro m hm
      simp [handlePlay, hm]
    · intro hw hfull
      simp [handlePlay, hw, hfull]
    · intro hw hempty
      simp [handlePlay, hw, hempty, hgo]
  · decide
  · decide

/-- C3 at the first move of a game: X on cell 0 of the empty board. -/
theorem play_outcome_witness :
    Accepted initial 0 (emptyBoard.set 0 (some Mark.X)) ∧
      (click initial 0).gameOver = false ∧ (click initial 0).winner = none :=
  ⟨⟨emptyBoard, rfl, by decide, rfl⟩,
    (play_outcome.1 initial 0 (emptyBoard.set 0 (some Mark.X))
      ⟨emptyBoard, rfl, by decide, rfl⟩).2.2 (by decide) (by decide)⟩

theorem accepted_play {s : GameState} {i : Nat} {b : Squares} (h : Accepted s i b) :
    0 ≤ s.currentMove ∧ s.currentMove < (s.history.length : Int) ∧
      (click s i).history = s.history.take (s.currentMove.toNat + 1) ++ [b] ∧
      ((click s i).history.length : Int) = s.currentMove + 2 ∧
      (click s i).currentMove = s.currentMove + 1 := by
  rw [click_of_accepted h]
  obtain ⟨squares, hsq, _, _⟩ := h
  obtain ⟨h0, hlt, _⟩ := arrayAt_eq_some hsq
  have hh : (handlePlay s b).history = s.history.take (s.currentMove.toNat + 1) ++ [b] := by
    rw [handlePlay_history, sliceTo_succ _ _ h0]
  have hl : ((handlePlay s b).history.length : Int) = s.currentMove + 2 := by
    rw [hh, List.length_append, List.length_take, List.length_singleton]
    omega
  refine ⟨h0, hlt, hh, hl, ?_⟩
  rw [handlePlay_currentMove, hl]
  omega

/-- C4: after `jumpTo(k)` with `k` in range, an accepted play on cell `i` leaves a
history of `k + 2` snapshots whose first `k + 1` are those of the old history and
whose last is the board at `k` with cell `i` set to X for even `k` and to O for
odd `k`; the pointer is `k + 1`. -/
theorem jump_then_play (s : GameState) (k i : Nat) (b : Squares)
    (hk : k < s.history.length) (hacc : Accepted (jumpTo s k) i b) :
    (click (jumpTo s k) i).history.length = k + 2 ∧
      (click (jumpTo s k) i).history.take (k + 1) = s.history.take (k + 1) ∧
      (∃ squares, s.history[k]? = some squares ∧
        (click (jumpTo s k) i).history[k + 1]? =
          some (squares.set i (some (if k % 2 = 0 then Mark.X else Mark.O)))) ∧
      (click (jumpTo s k) i).currentMove = (k : Int) + 1 := by
  obtain ⟨_, _, hh, _, hc⟩ := accepted_play hacc
  obtain ⟨squares, hsq, _, hb⟩ := hacc
  obtain ⟨_, _, _, hb⟩ := handleClick_eq_some hb
  have hsq2 : s.history[k]? = some squares := by
    have := (arrayAt_eq_some hsq).2.2
    simpa [jumpTo] using this
  have hh2 : (click (jumpTo s k) i).history = s.history.take (k + 1) ++ [b] := by
    simpa [jumpTo] using hh
  have hlen : (s.history.take (k + 1)).length = k + 1 := by
    rw [List.length_take]; omega
  have hx : markOf (xIsNext (jumpTo s k)) = if k % 2 = 0 then Mark.X else Mark.O := by
    have : ((k : Int).tmod 2 = 0) ↔ k % 2 = 0 := by
      rw [Int.tmod_eq_emod (by omega) (by omega)]; omega
    simp [markOf, xIsNext, jumpTo, this]
  refine ⟨?_, ?_, ⟨squares, hsq2, ?_⟩, ?_⟩
  · rw [hh2, List.length_append, hlen, List.length_singleton]
  · rw [hh2, List.take_left' hlen]
  · rw [hh2, List.getElem?_append_right (by omega), hlen, hb, hx]
    simp
  · simpa [jumpTo] using hc

/-- C4 on the game X:0, O:1 after a jump back to move 0: X plays cell 2. -/
theorem jump_then_play_witness :
    (click (jumpTo (click (click initial 0) 1) (0 : Nat)) 2).history.length = 0 + 2 ∧
      (click (jumpTo (click (click initial 0) 1) (0 : Nat)) 2).history.take (0 + 1)
        = (click (click initial 0) 1).history.take (0 + 1) ∧
      (∃ squares, (click (click initial 0) 1).history[0]? = some squares ∧
        (click (jumpTo (click (click initial 0) 1) (0 : Nat)) 2).history[0 + 1]? =
          some (squares.set 2 (some (if 0 % 2 = 0 then Mark.X else Mark.O)))) ∧
      (click (jumpTo (click (click initial 0) 1) (0 : Nat)) 2).currentMove = ((0 : Nat) : Int) + 1 :=
  jump_then_play (click (click initial 0) 1) 0 2 (emptyBoard.set 2 (some Mark.X)) (by decide)
    ⟨emptyBoard, rfl, by decide, rfl⟩

/-- C5 as stated fails: in the reachable state after X:0, O:1 and a jump back to
move 0, the history has 3 snapshots; the accepted play on cell 2 leaves 2, not 4. -/
theorem play_length_counterexample :
    Reachable branchPoint ∧ Accepted branchPoint 2 (emptyBoard.set 2 (some Mark.X)) ∧
      branchPoint.history.length = 3 ∧ (click branchPoint 2).history.length = 2 ∧
      (click branchPoint 2).history.length ≠ branchPoint.history.length + 1 :=
  ⟨⟨[Action.click 0, Action.click 1, Action.jump 0], by decide⟩,
    ⟨emptyBoard, rfl, by decide, rfl⟩, by decide, by decide, by decide⟩

/-- C5, amended: after an accepted play the history has the previous pointer
plus 2 snapshots, the snapshots after the pointer having been dropped; this is
the previous length plus 1 when the pointer was at the last snapshot; and the
pointer is the index of the new last snapshot. -/
theorem play_length (s : GameState) (i : Nat) (b : Squares) (hacc : Accepted s i b) :
    ((click s i).history.length : Int) = s.currentMove + 2 ∧
      (s.currentMove = (s.history.length : Int) - 1 →
        (click s i).history.length = s.history.length + 1) ∧
      (click s i).currentMove = ((click s i).history.length : Int) - 1 ∧
      (click s i).history.getLast? = some b := by
  obtain ⟨_, _, hh, hl, hc⟩ := accepted_play hacc
  refine ⟨hl, ?_, ?_, ?_⟩
  · intro h; omega
  · omega
  · rw [hh]; simp

/-- C5, amended, at the state after X:0, O:1 and a jump back to move 0. -/
theorem play_length_witness :
    Accepted branchPoint 2 (emptyBoard.set 2 (some Mark.X)) ∧
      ((click branchPoint 2).history.length : Int) = branchPoint.currentMove + 2 ∧
      (click branchPoint 2).currentMove = ((click branchPoint 2).history.length : Int) - 1 :=
  ⟨⟨emptyBoard, rfl, by decide, rfl⟩,
    (play_length branchPoint 2 (emptyBoard.set 2 (some Mark.X))
      ⟨emptyBoard, rfl, by decide, rfl⟩).1,
    (play_length branchPoint 2 (emptyBoard.set 2 (some Mark.X))
      ⟨emptyBoard, rfl, by decide, rfl⟩).2.2.1⟩

/-! ## The invariant of the reachable states -/

theorem click_cases (s : GameState) (i : Nat) : click s i = s ∨ ∃ b, Accepted s i b := by
  unfold click
  cases hsq : currentSquares s with
  | none => exact Or.inl rfl
  | some squares =>
    simp only
    split
    · rename_i hi
      cases hb : handleClick (xIsNext s) squares s.gameOver i with
      | none => exact Or.inl rfl
      | some b => exact Or.inr ⟨b, squares, hsq, hi, hb⟩
    · exact Or.inl rfl

theorem inv_initial : Inv initial := by
  refine ⟨by decide, by decide, rfl, ?_⟩
  show List.Chain' IsMove [emptyBoard]
  exact List.chain'_singleton _

theorem inv_click {s : GameState} (h : Inv s) (i : Nat) : Inv (click s i) := by
  rcases click_cases s i with hc | ⟨b, hacc⟩
  · rw [hc]; exact h
  · obtain ⟨h0, hlt, hh, hl, hcm⟩ := accepted_play hacc
    obtain ⟨squares, hsq, hi, hb⟩ := hacc
    obtain ⟨_, hw, hcell, hb⟩ := handleClick_eq_some hb
    obtain ⟨_, _, hhead, hchain⟩ := h
    have hget : s.history[s.currentMove.toNat]? = some squares := (arrayAt_eq_some hsq).2.2
    refine ⟨by omega, by omega, ?_, ?_⟩
    · rw [hh, List.head?_append, List.head?_take, if_neg (by omega), hhead]
      rfl
    · rw [hh, List.chain'_append]
      refine ⟨hchain.take _, List.chain'_singleton _, ?_⟩
      intro x hx y hy
      rw [List.getLast?_take, if_neg (by omega)] at hx
      simp only [Nat.add_sub_cancel, hget, Option.or_some, Option.mem_def,
        Option.some.injEq] at hx
      simp only [List.head?_cons, Option.mem_def, Option.some.injEq] at hy
      subst hx
      subst hy
      exact ⟨hw, i, markOf (xIsNext s), hi, hcell, hb⟩

theorem inv_jumpTo {s : GameState} (h : Inv s) (k : Int) (h0 : 0 ≤ k)
    (hlt : k < (s.history.length : Int)) : Inv (jumpTo s k) :=
  ⟨h0, hlt, h.2.2.1, h.2.2.2⟩

theorem inv_resetGame (s : GameState) : Inv (resetGame s) :=
  ⟨Int.le_refl 0, Int.zero_lt_one, rfl, List.chain'_singleton _⟩

theorem inv_timerFires (s : GameState) : Inv (timerFires s) :=
  ⟨Int.le_refl 0, Int.zero_lt_one, rfl, List.chain'_singleton _⟩

theorem inv_step {s t : GameState} (h : Inv s) (a : Action) (hst : step s a = some t) :
    Inv t := by
  cases a with
  | click i =>
    simp only [step, Option.some.injEq] at hst
    subst hst
    exact inv_click h i
  | jump k =>
    simp only [step] at hst
    split at hst
    · rename_i hk
      simp only [Option.some.injEq] at hst
      subst hst
      exact inv_jumpTo h k hk.1 hk.2
    · cases hst
  | reset =>
    simp only [step, Option.some.injEq] at hst
    subst hst
    exact inv_resetGame s
  | timeout =>
    simp only [step] at hst
    split at hst
    · simp only [Option.some.injEq] at hst
      subst hst
      exact inv_timerFires s
    · cases hst

theorem inv_run (acts : List Action) : ∀ {s t : GameState}, Inv s → run s acts = some t → Inv t := by
  induction acts with
  | nil =>
    intro s t h hr
    simp only [run, Option.some.injEq] at hr
    subst hr
    exact h
  | cons a rest ih =>
    intro s t h hr
    simp only [run] at hr
    cases hst : step s a with
    | none => rw [hst] at hr; cases hr
    | some u =>
      rw [hst] at hr
      exact ih (inv_step h a hst) hr

theorem inv_of_reachable {s : GameState} (h : Reachable s) : Inv s := by
  obtain ⟨acts, hr⟩ := h
  exact inv_run acts inv_initial hr

theorem inv_isMove {s : GameState} (h : Inv s) (j : Nat) (p q : Squares)
    (hp : s.history[j]? = some p) (hq : s.history[j + 1]? = some q) : IsMove p q := by
  obtain ⟨hlt, hq2⟩ := List.getElem?_eq_some.mp hq
  obtain ⟨hlt1, hp2⟩ := List.getElem?_eq_some.mp hp
  have := (List.chain'_iff_get.mp h.2.2.2) j (by omega)
  simp only [List.get_eq_getElem] at this
  rw [hp2, hq2] at this
  exact this

theorem inv_length {s : GameState} (h : Inv s) :
    ∀ (j : Nat) (b : Squares), s.history[j]? = some b → b.length = 9 := by
  intro j
  induction j with
  | zero =>
    intro b hb
    have := h.2.2.1
    rw [List.head?_eq_getElem?, hb] at this
    cases this
    rfl
  | succ j ih =>
    intro q hq
    obtain ⟨hlt, _⟩ := List.getElem?_eq_some.mp hq
    have hp : s.history[j]? = some (s.history[j]) := List.getElem?_eq_getElem (by omega)
    obtain ⟨_, i, m, _, _, hset⟩ := inv_isMove h j _ q hp hq
    rw [hset, List.length_set]
    exact ih _ hp

theorem inv_not_last {s : GameState} (h : Inv s) (j : Nat) (b : Squares)
    (hj : j + 1 < s.history.length) (hb : s.history[j]? = some b) :
    calculateWinner b = none :=
  (inv_isMove h j b _ hb (List.getElem?_eq_getElem hj)).1

theorem cellAt_eq (squares : Squares) (k : Nat) (hk : k < squares.length) :
    squares[k]? = some (cellAt squares k) := by
  simp [cellAt, List.getElem?_eq_getElem hk]

theorem step_jump (s t : GameState) (k : Int) (h : step s (Action.jump k) = some t) :
    t = jump s k ∧ t = jumpTo s k := by
  simp only [step] at h
  unfold jump
  split at h
  · rename_i hk
    rw [if_pos hk]
    exact ⟨(Option.some.inj h).symm, (Option.some.inj h).symm⟩
  · cases h

/-- C9: for a move below 0 or at least the length of the history the move list
holds no button, so the jump is not an event of the component and changes
nothing: pointer, history, stored winner, game-over and celebration flags are as
before; and in a reachable state the pointer is, and stays, an index of the
history with a board under it. -/
theorem jump_out_of_range (s : GameState) (move : Int)
    (h : move < 0 ∨ (s.history.length : Int) ≤ move) :
    step s (Action.jump move) = none ∧
      (jump s move).currentMove = s.currentMove ∧ (jump s move).history = s.history ∧
      (jump s move).winner = s.winner ∧ (jump s move).gameOver = s.gameOver ∧
      (jump s move).showCelebration = s.showCelebration ∧ jump s move = s ∧
      (Reachable s →
        0 ≤ (jump s move).currentMove ∧
        (jump s move).currentMove < ((jump s move).history.length : Int) ∧
        ∃ squares, currentSquares (jump s move) = some squares ∧ squares.length = 9) := by
  have hg : ¬ (0 ≤ move ∧ move < (s.history.length : Int)) := by omega
  have hj : jump s move = s := by
    unfold jump
    rw [if_neg hg]
  have hstep : step s (Action.jump move) = none := by
    show (if 0 ≤ move ∧ move < (s.history.length : Int) then some (jumpTo s move) else none)
      = none
    rw [if_neg hg]
  refine ⟨hstep, by rw [hj], by rw [hj], by rw [hj], by rw [hj], by rw [hj], hj, ?_⟩
  intro hs
  rw [hj]
  have hinv := inv_of_reachable hs
  have h0 := hinv.1
  have hlt := hinv.2.1
  have hidx : s.currentMove.toNat < s.history.length := by omega
  refine ⟨h0, hlt, s.history[s.currentMove.toNat], ?_, ?_⟩
  · show arrayAt s.history s.currentMove = _
    unfold arrayAt
    rw [if_pos h0]
    exact List.getElem?_eq_getElem hidx
  · exact inv_length hinv _ _ (List.getElem?_eq_getElem hidx)

/-- C9 at the state after X:0, O:1, whose move list has three buttons, and move 5. -/
theorem jump_out_of_range_witness :
    ((click (click initial 0) 1).history.length : Int) ≤ 5 ∧
      Reachable (click (click initial 0) 1) ∧
      step (click (click initial 0) 1) (Action.jump 5) = none ∧
      jump (click (click initial 0) 1) 5 = click (click initial 0) 1 ∧
      0 ≤ (jump (click (click initial 0) 1) 5).currentMove ∧
      (jump (click (click initial 0) 1) 5).currentMove
        < ((jump (click (click initial 0) 1) 5).history.length : Int) :=
  ⟨by decide, ⟨[Action.click 0, Action.click 1], by decide⟩,
    (jump_out_of_range (click (click initial 0) 1) 5 (Or.inr (by decide))).1,
    (jump_out_of_range (click (click initial 0) 1) 5 (Or.inr (by decide))).2.2.2.2.2.2.1,
    ((jump_out_of_range (click (click initial 0) 1) 5 (Or.inr (by decide))).2.2.2.2.2.2.2
      ⟨[Action.click 0, Action.click 1], by decide⟩).1,
    ((jump_out_of_range (click (click initial 0) 1) 5 (Or.inr (by decide))).2.2.2.2.2.2.2
      ⟨[Action.click 0, Action.click 1], by decide⟩).2.1⟩

/-- C6: in every reachable state the history is non-empty, starts with the empty
board, holds boards of exactly nine cells, and each snapshot after the first
differs from its predecessor in exactly one cell, empty before and filled after. -/
theorem history_invariant (s : GameState) (hs : Reachable s) :
    s.history ≠ [] ∧
      s.history[0]? = some [none, none, none, none, none, none, none, none, none] ∧
      (∀ b ∈ s.history, b.length = 9) ∧
      (∀ (j : Nat) (p q : Squares), s.history[j]? = some p → s.history[j + 1]? = some q →
        ∃ i, i < 9 ∧ p[i]? = some none ∧ (∃ m, q[i]? = some (some m)) ∧
          ∀ k, k ≠ i → q[k]? = p[k]?) := by
  have h := inv_of_reachable hs
  refine ⟨?_, ?_, ?_, ?_⟩
  · intro hnil
    have h1 := h.1
    have h2 := h.2.1
    rw [hnil] at h2
    simp at h2
    omega
  · rw [← List.head?_eq_getElem?]
    exact h.2.2.1
  · intro b hb
    obtain ⟨j, hj⟩ := List.mem_iff_getElem?.mp hb
    exact inv_length h j b hj
  · intro j p q hp hq
    obtain ⟨_, i, m, hi, hcell, hset⟩ := inv_isMove h j p q hp hq
    have hlen := inv_length h j p hp
    refine ⟨i, by omega, ?_, ⟨m, ?_⟩, ?_⟩
    · rw [cellAt_eq p i hi, hcell]
    · rw [hset, List.getElem?_set_self hi]
    · intro k hk
      rw [hset, List.getElem?_set_ne (Ne.symm hk)]

/-- C6 at the state after X:0, O:1, X:4, O:2, X:8. -/
theorem history_invariant_witness :
    Reachable wonGame ∧ wonGame.history ≠ [] ∧ (∀ b ∈ wonGame.history, b.length = 9) :=
  ⟨⟨[Action.click 0, Action.click 1, Action.click 4, Action.click 2, Action.click 8], by decide⟩,
    (history_invariant wonGame
      ⟨[Action.click 0, Action.click 1, Action.click 4, Action.click 2, Action.click 8],
        by decide⟩).1,
    (history_invariant wonGame
      ⟨[Action.click 0, Action.click 1, Action.click 4, Action.click 2, Action.click 8],
        by decide⟩).2.2.1⟩

/-! ## Completed lines on reachable boards -/

theorem cellAt_emptyBoard (a : Nat) : cellAt emptyBoard a = none := by
  unfold cellAt emptyBoard
  rw [List.getD_eq_getElem?_getD, List.getElem?_replicate]
  split <;> rfl

theorem cellAt_set (p : Squares) (i k : Nat) (v : Cell) (hi : i < p.length) :
    cellAt (p.set i v) k = if k = i then v else cellAt p k := by
  unfold cellAt
  rw [List.getD_eq_getElem?_getD, List.getD_eq_getElem?_getD, List.getElem?_set]
  by_cases hk : k = i
  · subst hk
    simp [hi]
  · rw [if_neg (Ne.symm hk), if_neg hk]

theorem isMove_line {p q : Squares} (h : IsMove p q) :
    ∃ m, ∀ t ∈ lines, ∀ w, Holds q t w → w = m := by
  obtain ⟨hw, i, m, hi, _, hset⟩ := h
  refine ⟨m, ?_⟩
  intro t ht w hh
  by_contra hne
  have hnone := (calculateWinnerFrom_none lines p).mp hw t ht w
  apply hnone
  obtain ⟨h1, h2, h3⟩ := hh
  rw [hset, cellAt_set p i _ _ hi] at h1 h2 h3
  have key : ∀ k, (if k = i then some m else cellAt p k) = some w → cellAt p k = some w := by
    intro k hk
    split at hk
    · exact absurd (Option.some.inj hk).symm hne
    · exact hk
  exact ⟨key _ h1, key _ h2, key _ h3⟩

theorem inv_one_mark {s : GameState} (h : Inv s) (b : Squares) (hb : b ∈ s.history) :
    ∃ m, ∀ t ∈ lines, ∀ w, Holds b t w → w = m := by
  obtain ⟨j, hj⟩ := List.mem_iff_getElem?.mp hb
  cases j with
  | zero =>
    have h0 := h.2.2.1
    rw [List.head?_eq_getElem?, hj] at h0
    cases h0
    refine ⟨Mark.X, ?_⟩
    intro t _ w hh
    have := hh.1
    rw [cellAt_emptyBoard] at this
    cases this
  | succ j =>
    obtain ⟨hlt, _⟩ := List.getElem?_eq_some.mp hj
    have hp : s.history[j]? = some (s.history[j]) := List.getElem?_eq_getElem (by omega)
    exact isMove_line (inv_isMove h j _ b hp hj)

/-- C10: in every reachable state no snapshot other than the last has a completed
line, no snapshot has a completed line of X together with one of O, and on every
snapshot `calculateWinner` returns the same result for every order of the eight
triples. -/
theorem completed_lines (s : GameState) (hs : Reachable s) :
    (∀ (j : Nat) (b : Squares), j + 1 < s.history.length → s.history[j]? = some b →
        calculateWinner b = none) ∧
      (∀ b ∈ s.history, ¬ (HasLine b Mark.X ∧ HasLine b Mark.O)) ∧
      (∀ b ∈ s.history, ∀ ls : List (Nat × Nat × Nat),
        ls.Perm [(0, 1, 2), (3, 4, 5), (6, 7, 8), (0, 3, 6), (1, 4, 7), (2, 5, 8),
          (0, 4, 8), (2, 4, 6)] →
        calculateWinnerFrom ls b = calculateWinner b) := by
  have h := inv_of_reachable hs
  refine ⟨?_, ?_, ?_⟩
  · intro j b hj hb
    exact inv_not_last h j b hj hb
  · rintro b hb ⟨⟨t, ht, hx⟩, ⟨u, hu, ho⟩⟩
    obtain ⟨m, hm⟩ := inv_one_mark h b hb
    have h1 := hm t ht _ hx
    have h2 := hm u hu _ ho
    rw [← h2] at h1
    cases h1
  · intro b hb ls hperm
    obtain ⟨m, hm⟩ := inv_one_mark h b hb
    have hmem : ∀ t, t ∈ ls ↔ t ∈ lines := fun t => hperm.mem_iff
    cases hl : calculateWinnerFrom ls b with
    | none =>
      symm
      rw [calculateWinner, calculateWinnerFrom_none]
      intro t ht w
      exact (calculateWinnerFrom_none ls b).mp hl t ((hmem t).mpr ht) w
    | some w =>
      obtain ⟨t, ht, hh⟩ := calculateWinnerFrom_some ls b w hl
      cases hc : calculateWinner b with
      | none =>
        exact absurd hh ((calculateWinnerFrom_none lines b).mp hc t ((hmem t).mp ht) w)
      | some w2 =>
        obtain ⟨u, hu, hh2⟩ := calculateWinnerFrom_some lines b w2 hc
        rw [hm t ((hmem t).mp ht) w hh, hm u hu w2 hh2]

/-- C10 at the state after X:0, O:1, X:4, O:2, X:8, for the triples in reverse order. -/
theorem completed_lines_witness :
    Reachable wonGame ∧
      (∀ b ∈ wonGame.history, calculateWinnerFrom [(2, 4, 6), (0, 4, 8), (2, 5, 8), (1, 4, 7),
        (0, 3, 6), (6, 7, 8), (3, 4, 5), (0, 1, 2)] b = calculateWinner b) :=
  ⟨⟨[Action.click 0, Action.click 1, Action.click 4, Action.click 2, Action.click 8], by decide⟩,
    fun b hb => (completed_lines wonGame
      ⟨[Action.click 0, Action.click 1, Action.click 4, Action.click 2, Action.click 8],
        by decide⟩).2.2 b hb _ (List.reverse_perm lines)⟩

/-! ## Jumps, resets and the scheduled reset -/

/-- C8 as stated fails: in the reachable state after X:0, O:1, X:4, O:2, X:8 the
board at position 5 has the completed line 0-4-8 of X, and `jumpTo(5)` stores no
winner. -/
theorem jump_winner_counterexample :
    Reachable wonGame ∧ (5 : Int) < wonGame.history.length ∧
      (arrayAt wonGame.history 5).map calculateWinner = some (some Mark.X) ∧
      (jumpTo wonGame 5).winner = none :=
  ⟨⟨[Action.click 0, Action.click 1, Action.click 4, Action.click 2, Action.click 8], by decide⟩,
    by decide, by decide, rfl⟩

/-- C8, amended: in every reachable state, after `jumpTo(k)` with `k` in range
the stored winner is none; this is `calculateWinner` of the board at `k` for every
`k` but the last index, and for the last index exactly when the last board has no
completed line. -/
theorem jump_winner (s : GameState) (hs : Reachable s) (k : Nat) (hk : k < s.history.length) :
    ∃ b, s.history[k]? = some b ∧ (jumpTo s k).winner = none ∧
      (k + 1 < s.history.length → (jumpTo s k).winner = calculateWinner b) ∧
      ((jumpTo s k).winner = calculateWinner b ↔ calculateWinner b = none) := by
  refine ⟨s.history[k], List.getElem?_eq_getElem hk, rfl, ?_, ?_⟩
  · intro hlt
    rw [inv_not_last (inv_of_reachable hs) k _ hlt (List.getElem?_eq_getElem hk)]
    rfl
  · show none = calculateWinner s.history[k] ↔ calculateWinner s.history[k] = none
    exact eq_comm

/-- C8, amended, at the state after X:0, O:1, X:4, O:2, X:8 and move 3. -/
theorem jump_winner_witness :
    Reachable wonGame ∧ 3 < wonGame.history.length ∧
      ∃ b, wonGame.history[3]? = some b ∧ (jumpTo wonGame (3 : Nat)).winner = none ∧
        (3 + 1 < wonGame.history.length → (jumpTo wonGame (3 : Nat)).winner = calculateWinner b) ∧
        ((jumpTo wonGame (3 : Nat)).winner = calculateWinner b ↔ calculateWinner b = none) :=
  ⟨⟨[Action.click 0, Action.click 1, Action.click 4, Action.click 2, Action.click 8], by decide⟩,
    by decide,
    jump_winner wonGame
      ⟨[Action.click 0, Action.click 1, Action.click 4, Action.click 2, Action.click 8],
        by decide⟩ 3 (by decide)⟩

/-- C7 as stated fails: the play X:8 that wins the game X:0, O:1, X:4, O:2, X:8
schedules a reset; after `jumpTo(0)` it is still scheduled, and when it runs the
history of six snapshots is collapsed to the single empty board.  The same holds
after `resetGame()`. -/
theorem timer_counterexample :
    run initial [Action.click 0, Action.click 1, Action.click 4, Action.click 2, Action.click 8,
        Action.jump 0] = some (jumpTo wonGame 0) ∧
      wonGame.pendingResets = 1 ∧ (jumpTo wonGame 0).pendingResets ≠ 0 ∧
      (resetGame wonGame).pendingResets ≠ 0 ∧
      (jumpTo wonGame 0).history.length = 6 ∧
      (run (jumpTo wonGame 0) [Action.timeout]).map (fun s => s.history) = some [emptyBoard] := by
  decide

/-- C7, amended: a terminal play schedules one more reset; `jumpTo` and
`resetGame` leave the scheduled resets as they are; a scheduled reset runs
`resetGame` on whatever the state then is, collapsing the history to the single
empty board.  After the won game, `jumpTo(0)` shows the empty board with the
game-over flag clear and no stored winner, the reset still being scheduled, and
the history is collapsed when it runs. -/
theorem timer_not_cancelled :
    (∀ (s : GameState) (i : Nat) (b : Squares), Accepted s i b →
        calculateWinner b ≠ none ∨ none ∉ b →
        (click s i).pendingResets = s.pendingResets + 1) ∧
      (∀ (s : GameState) (m : Int), (jumpTo s m).pendingResets = s.pendingResets) ∧
      (∀ s : GameState, (resetGame s).pendingResets = s.pendingResets) ∧
      (∀ s : GameState, 0 < s.pendingResets →
        step s Action.timeout = some (timerFires s) ∧
        (timerFires s).history = [emptyBoard] ∧ (timerFires s).currentMove = 0 ∧
        (timerFires s).pendingResets + 1 = s.pendingResets) ∧
      (currentSquares (jumpTo wonGame 0) = some emptyBoard ∧
        (jumpTo wonGame 0).gameOver = false ∧ (jumpTo wonGame 0).winner = none ∧
        (jumpTo wonGame 0).pendingResets = 1 ∧
        (run (jumpTo wonGame 0) [Action.timeout]).map (fun s => s.history)
          = some [emptyBoard]) := by
  refine ⟨?_, fun _ _ => rfl, fun _ => rfl, ?_, by decide⟩
  · intro s i b hacc hterm
    rw [click_of_accepted hacc]
    unfold handlePlay
    simp only
    rw [if_pos]
    rcases hterm with h | h
    · exact Or.inl (Option.isSome_iff_ne_none.mpr h)
    · exact Or.inr h
  · intro s hp
    refine ⟨by simp [step, hp], rfl, rfl, ?_⟩
    show s.pendingResets - 1 + 1 = s.pendingResets
    omega

/-- C7, amended, at the won game, where one reset is scheduled. -/
theorem timer_not_cancelled_witness :
    0 < wonGame.pendingResets ∧ step wonGame Action.timeout = some (timerFires wonGame) ∧
      (timerFires wonGame).history = [emptyBoard] :=
  ⟨by decide, (timer_not_cancelled.2.2.2.1 wonGame (by decide)).1,
    (timer_not_cancelled.2.2.2.1 wonGame (by decide)).2.1⟩

end XsiO
